import Mathlib

/-! Spec2Proof:
Shallow embedding of the message-reconciliation and derived-state core of the
Bolcha chat client (`src/client/src/components/chat/ChatContainer.tsx` and
`src/client/src/components/settings/ProfileImageUpload.tsx`).

Conventions of the embedding:
* A JavaScript value that may be `undefined` is an `Option`.
* `msg.id` is truthy in JS exactly when it is defined and nonzero, so the
  guard `if (msg.id && ...)` becomes `hasValidId`.
* A JS `Map` preserves insertion order and `set` on an existing key updates
  the value in place; it is embedded as an association list with in-place
  update (`mapSet`).
* `Array.prototype.sort` is a stable sort (ES2019); it is embedded as
  `List.insertionSort` (a stable sort) on the relation `comparator a b <= 0`.
  For a comparator inducing a total preorder the stable-sorted list is
  unique, so any stable sort is a faithful embedding; totality and
  transitivity of both comparators used by the source are proved below.
* Timestamps are epoch milliseconds; `new Date(msg.timestamp || 0).getTime()`
  becomes `effTime` (missing timestamp maps to epoch 0).
-/

/-- A chat message as used by `ChatContainer`. `id` and `timestamp` are
optional because the merge effect explicitly guards against their absence. -/
structure Message where
  id : Option Nat
  roomId : Nat
  senderId : String
  originalText : String
  timestamp : Option Nat
  deriving DecidableEq, Repr

/-- JS truthiness of `msg.id`: defined and nonzero. -/
def Message.hasValidId (m : Message) : Bool :=
  match m.id with
  | none => false
  | some n => n != 0

/-- Effective timestamp, `new Date(msg.timestamp || 0).getTime()`: a missing
timestamp is epoch 0. -/
def effTime (m : Message) : Nat :=
  m.timestamp.getD 0

/-- JS `Map.set`: update in place if the key exists (preserving insertion
order), otherwise append at the end. -/
def mapSet (acc : List (Nat × Message)) (k : Nat) (v : Message) :
    List (Nat × Message) :=
  if acc.any (fun p => p.1 == k) then
    acc.map (fun p => if p.1 == k then (k, v) else p)
  else
    acc ++ [(k, v)]

/-- JS `Map.get`-style lookup (first entry with the key). -/
def mapGet : List (Nat × Message) → Nat → Option Message
  | [], _ => none
  | p :: rest, k => if p.1 == k then some p.2 else mapGet rest k

/-- One iteration of the two `forEach` loops of the merge effect
(ChatContainer lines 283-294): `if (msg.id && !deletedMessageIds.has(msg.id))
messageMap.set(msg.id, msg)`. -/
def addIfKept (tombstones : List Nat) (acc : List (Nat × Message))
    (m : Message) : List (Nat × Message) :=
  match m.id with
  | none => acc
  | some n =>
      if n != 0 && !(tombstones.contains n) then mapSet acc n m else acc

/-- The deduplication map built by the merge effect: historical (database)
messages inserted first, then live (WebSocket) messages overwrite. -/
def buildMap (hist live : List Message) (tombstones : List Nat) :
    List (Nat × Message) :=
  (hist ++ live).foldl (addIfKept tombstones) []

/-- The merge effect of `ChatContainer` (lines 274-298): deduplicate by id
with live data winning, drop tombstoned ids, sort by timestamp ascending. -/
def reconcile (hist live : List Message) (tombstones : List Nat) :
    List Message :=
  List.insertionSort (fun a b => effTime a ≤ effTime b)
    ((buildMap hist live tombstones).map Prod.snd)

/-- The whole effect input: `wsMessages = allMessages.filter(msg => msg.roomId
=== roomId)` feeding `reconcile`. -/
def mergeEffect (initialMsgs allMsgs : List Message) (roomId : Nat)
    (tombstones : List Nat) : List Message :=
  reconcile initialMsgs (allMsgs.filter (fun m => m.roomId == roomId))
    tombstones

section ReconcileLemmas

/-- Invariant of the deduplication map: every entry's key is the value's id,
nonzero, and not tombstoned; keys are pairwise distinct. -/
def MapInv (tombstones : List Nat) (acc : List (Nat × Message)) : Prop :=
  (∀ p ∈ acc, p.2.id = some p.1 ∧ p.1 ≠ 0 ∧ p.1 ∉ tombstones) ∧
    (acc.map Prod.fst).Nodup

theorem mapInv_mapSet {tombstones : List Nat} {acc : List (Nat × Message)}
    {k : Nat} {v : Message} (h : MapInv tombstones acc) (hid : v.id = some k)
    (hk : k ≠ 0) (ht : k ∉ tombstones) :
    MapInv tombstones (mapSet acc k v) := by
  obtain ⟨h1, h2⟩ := h
  unfold mapSet
  split
  · constructor
    · intro p hp
      simp only [List.mem_map] at hp
      obtain ⟨q, hq, hpq⟩ := hp
      by_cases hqk : q.1 = k
      · simp [hqk] at hpq
        subst hpq
        exact ⟨hid, hk, ht⟩
      · simp [beq_iff_eq, hqk] at hpq
        subst hpq
        exact h1 q hq
    · have : (acc.map (fun p => if p.1 == k then (k, v) else p)).map Prod.fst
          = acc.map Prod.fst := by
        rw [List.map_map]
        apply List.map_congr_left
        intro p _
        by_cases hqk : p.1 = k
        · simp [hqk]
        · simp [beq_iff_eq, hqk]
      rw [this]
      exact h2
  · rename_i hnone
    constructor
    · intro p hp
      rcases List.mem_append.mp hp with hp | hp
      · exact h1 p hp
      · simp at hp
        subst hp
        exact ⟨hid, hk, ht⟩
    · rw [List.map_append]
      simp only [List.map_cons, List.map_nil]
      rw [List.nodup_append]
      refine ⟨h2, List.nodup_singleton k, ?_⟩
      intro a ha
      simp only [List.mem_singleton]
      intro hak
      subst hak
      apply hnone
      simp only [List.any_eq_true]
      simp only [List.mem_map] at ha
      obtain ⟨q, hq, hqa⟩ := ha
      exact ⟨q, hq, by simp [hqa]⟩

theorem mapInv_addIfKept {tombstones : List Nat} {acc : List (Nat × Message)}
    (h : MapInv tombstones acc) (m : Message) :
    MapInv tombstones (addIfKept tombstones acc m) := by
  cases hm : m.id with
  | none => simpa [addIfKept, hm] using h
  | some n =>
      simp only [addIfKept, hm]
      split
      · rename_i hcond
        rw [Bool.and_eq_true] at hcond
        exact mapInv_mapSet h hm (by simpa using hcond.1)
          (by simpa using hcond.2)
      · exact h

theorem mapInv_foldl {tombstones : List Nat} (l : List Message)
    {acc : List (Nat × Message)} (h : MapInv tombstones acc) :
    MapInv tombstones (l.foldl (addIfKept tombstones) acc) := by
  induction l generalizing acc with
  | nil => exact h
  | cons m rest ih => exact ih (mapInv_addIfKept h m)

theorem mapInv_buildMap (hist live : List Message) (tombstones : List Nat) :
    MapInv tombstones (buildMap hist live tombstones) :=
  mapInv_foldl _ ⟨by simp, by simp⟩

theorem mem_reconcile {hist live : List Message} {tombstones : List Nat}
    {m : Message} (h : m ∈ reconcile hist live tombstones) :
    ∃ k, m.id = some k ∧ k ≠ 0 ∧ k ∉ tombstones := by
  unfold reconcile at h
  rw [List.mem_insertionSort] at h
  simp only [List.mem_map] at h
  obtain ⟨p, hp, hpm⟩ := h
  obtain ⟨hinv, -⟩ := mapInv_buildMap hist live tombstones
  obtain ⟨hid, hk, ht⟩ := hinv p hp
  exact ⟨p.1, by rw [← hpm]; exact hid, hk, ht⟩

end ReconcileLemmas

/-- C1 (tombstone supremacy): no message whose id is in the tombstone set
(`deletedMessageIds`) ever appears in the output of the merge effect
(`reconcile`), whether the id comes from the historical list, the live list,
or both. -/
theorem c1_tombstone_supremacy (hist live : List Message)
    (tombstones : List Nat) (m : Message)
    (hm : m ∈ reconcile hist live tombstones) :
    ∀ k, m.id = some k → k ∉ tombstones := by
  intro k hk
  obtain ⟨k', hk', _, ht⟩ := mem_reconcile hm
  rw [hk] at hk'
  cases hk'
  exact ht

/-- Witness for C1 at a concrete input: message id 2 is in the reconciled
output of a live list containing ids 2 and under tombstones {5}, and the
theorem yields that 2 is not tombstoned. -/
theorem c1_tombstone_supremacy_witness :
    (2 : Nat) ∉ ([5] : List Nat) :=
  c1_tombstone_supremacy [] [⟨some 2, 1, "bob", "hi", some 100⟩] [5]
    ⟨some 2, 1, "bob", "hi", some 100⟩ (by decide) 2 rfl

section DedupLemmas

/-- Last element of `l` whose id is `some i` (the entry that survives the
overwriting `Map.set` calls). -/
def lastWith : List Message → Nat → Option Message
  | [], _ => none
  | m :: rest, i =>
      match lastWith rest i with
      | some x => some x
      | none => if m.id == some i then some m else none

theorem lastWith_eq_some {l : List Message} {i : Nat} {x : Message}
    (h : lastWith l i = some x) : x ∈ l ∧ x.id = some i := by
  induction l with
  | nil => simp [lastWith] at h
  | cons m rest ih =>
      simp only [lastWith] at h
      cases hr : lastWith rest i with
      | some y =>
          rw [hr] at h
          injection h with h
          subst h
          obtain ⟨h1, h2⟩ := ih hr
          exact ⟨List.mem_cons_of_mem _ h1, h2⟩
      | none =>
          rw [hr] at h
          by_cases hm : m.id = some i
          · rw [if_pos (by simpa using hm)] at h
            injection h with h
            subst h
            exact ⟨List.mem_cons_self _ _, hm⟩
          · rw [if_neg (by simpa using hm)] at h
            exact absurd h (by simp)

theorem lastWith_eq_none {l : List Message} {i : Nat}
    (h : lastWith l i = none) : ∀ m ∈ l, m.id ≠ some i := by
  induction l with
  | nil => simp
  | cons m rest ih =>
      simp only [lastWith] at h
      cases hr : lastWith rest i with
      | some y => rw [hr] at h; exact absurd h (by simp)
      | none =>
          rw [hr] at h
          intro x hx
          rcases List.mem_cons.mp hx with h' | h'
          · subst h'
            intro hxi
            rw [if_pos (by simpa using hxi)] at h
            exact absurd h (by simp)
          · exact ih hr x h'

theorem lastWith_of_mem {l : List Message} {i : Nat}
    (h : ∃ m ∈ l, m.id = some i) :
    ∃ x, lastWith l i = some x ∧ x ∈ l ∧ x.id = some i := by
  cases hlw : lastWith l i with
  | some x =>
      obtain ⟨h1, h2⟩ := lastWith_eq_some hlw
      exact ⟨x, rfl, h1, h2⟩
  | none =>
      obtain ⟨m, hm, hmi⟩ := h
      exact absurd hmi (lastWith_eq_none hlw m hm)

theorem lastWith_append (h l : List Message) (i : Nat) :
    lastWith (h ++ l) i =
      match lastWith l i with
      | some x => some x
      | none => lastWith h i := by
  induction h with
  | nil =>
      simp only [List.nil_append]
      cases lastWith l i <;> simp [lastWith]
  | cons m rest ih =>
      simp only [List.cons_append, lastWith, List.append_eq]
      rw [ih]
      cases lastWith l i <;> rfl

theorem mapGet_append (acc l : List (Nat × Message)) (i : Nat) :
    mapGet (acc ++ l) i =
      match mapGet acc i with
      | some x => some x
      | none => mapGet l i := by
  induction acc with
  | nil => rfl
  | cons a rest ih =>
      simp only [List.cons_append, mapGet]
      by_cases hai : a.1 = i
      · simp [hai]
      · simp [hai, ih]

theorem mapGet_map_replace {k i : Nat} (hik : i ≠ k) (v : Message)
    (acc : List (Nat × Message)) :
    mapGet (acc.map (fun p => if p.1 == k then (k, v) else p)) i
      = mapGet acc i := by
  induction acc with
  | nil => rfl
  | cons a rest ih =>
      simp only [beq_iff_eq] at ih
      by_cases hak : a.1 = k
      · simp [mapGet, hak, Ne.symm hik, ih]
      · simp [mapGet, hak, ih]

theorem mapGet_map_replace_self {k : Nat} (v : Message)
    {acc : List (Nat × Message)} (h : acc.any (fun p => p.1 == k) = true) :
    mapGet (acc.map (fun p => if p.1 == k then (k, v) else p)) k
      = some v := by
  induction acc with
  | nil => simp at h
  | cons a rest ih =>
      simp only [beq_iff_eq] at ih
      by_cases hak : a.1 = k
      · simp [mapGet, hak]
      · simp only [List.any_cons, Bool.or_eq_true, beq_iff_eq] at h
        rcases h with h | h
        · exact absurd h hak
        · simp [mapGet, hak, ih (by simpa using h)]

theorem mapGet_none_of_not_any {k : Nat} {acc : List (Nat × Message)}
    (h : acc.any (fun p => p.1 == k) = false) : mapGet acc k = none := by
  induction acc with
  | nil => rfl
  | cons a rest ih =>
      simp only [List.any_cons, Bool.or_eq_false_iff, beq_eq_false_iff_ne,
        ne_eq] at h
      simp [mapGet, h.1, ih h.2]

theorem mapGet_mapSet_self (acc : List (Nat × Message)) (k : Nat)
    (v : Message) : mapGet (mapSet acc k v) k = some v := by
  unfold mapSet
  split
  · rename_i hex
    exact mapGet_map_replace_self v hex
  · rename_i hnex
    rw [mapGet_append]
    rw [mapGet_none_of_not_any (Bool.eq_false_iff.mpr hnex)]
    simp [mapGet]

theorem mapGet_mapSet_other {i k : Nat} (hik : i ≠ k)
    (acc : List (Nat × Message)) (v : Message) :
    mapGet (mapSet acc k v) i = mapGet acc i := by
  unfold mapSet
  split
  · exact mapGet_map_replace hik v acc
  · rw [mapGet_append]
    have : mapGet [(k, v)] i = none := by
      simp [mapGet, Ne.symm hik]
    rw [this]
    cases mapGet acc i <;> simp

theorem mapGet_foldl_addIfKept {tombstones : List Nat} {i : Nat}
    (hi : i ≠ 0) (ht : i ∉ tombstones) (l : List Message)
    (acc : List (Nat × Message)) :
    mapGet (l.foldl (addIfKept tombstones) acc) i =
      match lastWith l i with
      | some x => some x
      | none => mapGet acc i := by
  induction l generalizing acc with
  | nil => simp [lastWith]
  | cons m rest ih =>
      simp only [List.foldl_cons, lastWith]
      rw [ih]
      cases hlw : lastWith rest i with
      | some x => simp
      | none =>
          simp only []
          by_cases hm : m.id = some i
          · have hstep : addIfKept tombstones acc m = mapSet acc i m := by
              simp only [addIfKept, hm]
              rw [if_pos]
              rw [Bool.and_eq_true]
              constructor
              · simpa using hi
              · simpa using ht
            rw [hstep, mapGet_mapSet_self]
            rw [if_pos (by simpa using hm)]
          · have hstep : mapGet (addIfKept tombstones acc m) i
                = mapGet acc i := by
              cases hmm : m.id with
              | none => simp [addIfKept, hmm]
              | some n =>
                  have hni : n ≠ i := fun h => hm (by rw [hmm, h])
                  simp only [addIfKept, hmm]
                  split
                  · exact mapGet_mapSet_other (Ne.symm hni) acc m
                  · rfl
            rw [hstep, if_neg (by simpa using hm)]

theorem filter_key_of_nodup {acc : List (Nat × Message)}
    (hnd : (acc.map Prod.fst).Nodup) {i : Nat} {p : Nat × Message}
    (hp : p ∈ acc) (hpi : p.1 = i) :
    acc.filter (fun q => q.1 == i) = [p] := by
  induction acc with
  | nil => simp at hp
  | cons a rest ih =>
      rw [List.map_cons, List.nodup_cons] at hnd
      rcases List.mem_cons.mp hp with h' | h'
      · subst h'
        rw [List.filter_cons, if_pos (by simp [hpi])]
        have : rest.filter (fun q => q.1 == i) = [] := by
          rw [List.filter_eq_nil]
          intro q hq
          simp only [beq_iff_eq]
          intro hqi
          exact hnd.1 (by
            rw [hpi, ← hqi]
            exact List.mem_map_of_mem Prod.fst hq)
        rw [this]
      · have hai : a.1 ≠ i := by
          intro hax
          exact hnd.1 (by
            rw [hax, ← hpi]
            exact List.mem_map_of_mem Prod.fst h')
        rw [List.filter_cons, if_neg (by simp [hai])]
        exact ih hnd.2 h'

theorem mapGet_mem {acc : List (Nat × Message)} {i : Nat} {x : Message}
    (h : mapGet acc i = some x) : ∃ p ∈ acc, p.1 = i ∧ p.2 = x := by
  induction acc with
  | nil => simp [mapGet] at h
  | cons a rest ih =>
      simp only [mapGet] at h
      by_cases hai : a.1 = i
      · rw [if_pos (by simpa using hai)] at h
        injection h with h
        exact ⟨a, List.mem_cons_self _ _, hai, h⟩
      · rw [if_neg (by simpa using hai)] at h
        obtain ⟨p, hp1, hp2, hp3⟩ := ih h
        exact ⟨p, List.mem_cons_of_mem _ hp1, hp2, hp3⟩

end DedupLemmas

/-- C2 counterexample: id 1 is present in both the historical and the live
list, but because 1 is tombstoned the merged output contains no message with
id 1 at all — not "exactly one". -/
theorem c2_dedup_counterexample :
    (⟨some 1, 1, "alice", "old", some 100⟩ : Message).id = some 1 ∧
    (⟨some 1, 1, "alice", "new", some 100⟩ : Message).id = some 1 ∧
    reconcile [⟨some 1, 1, "alice", "old", some 100⟩]
      [⟨some 1, 1, "alice", "new", some 100⟩] [1] = [] := by
  refine ⟨rfl, rfl, ?_⟩
  rfl

/-- C2 amended (dedup, live wins): for every nonzero message id present in
both the historical and the live list and NOT in the tombstone set, exactly
one message with that id appears in the merged output, namely the last live
message carrying that id (so on conflicting content the live version wins). -/
theorem c2_dedup_live_wins (hist live : List Message) (tombstones : List Nat)
    (i : Nat) (hi : i ≠ 0) (ht : i ∉ tombstones)
    (hh : ∃ m ∈ hist, m.id = some i) (hl : ∃ m ∈ live, m.id = some i) :
    ∃ mL ∈ live, mL.id = some i ∧ lastWith live i = some mL ∧
      (reconcile hist live tombstones).filter (fun m => m.id == some i)
        = [mL] := by
  obtain ⟨mL, hlw, hmem, hmid⟩ := lastWith_of_mem hl
  refine ⟨mL, hmem, hmid, hlw, ?_⟩
  have hget : mapGet (buildMap hist live tombstones) i = some mL := by
    unfold buildMap
    rw [mapGet_foldl_addIfKept hi ht, lastWith_append, hlw]
  obtain ⟨p, hpmem, hpk, hpv⟩ := mapGet_mem hget
  obtain ⟨hinv, hnd⟩ := mapInv_buildMap hist live tombstones
  have hfk : (buildMap hist live tombstones).filter (fun q => q.1 == i)
      = [p] := filter_key_of_nodup hnd hpmem hpk
  have hperm : ((reconcile hist live tombstones).filter
        (fun m => m.id == some i)).Perm
      (((buildMap hist live tombstones).map Prod.snd).filter
        (fun m => m.id == some i)) := by
    unfold reconcile
    exact (List.perm_insertionSort _ _).filter _
  have hvals : ((buildMap hist live tombstones).map Prod.snd).filter
      (fun m => m.id == some i) = [mL] := by
    rw [List.filter_map]
    have hcong : (buildMap hist live tombstones).filter
        ((fun m => m.id == some i) ∘ Prod.snd)
        = (buildMap hist live tombstones).filter (fun q => q.1 == i) := by
      apply List.filter_congr
      intro q hq
      obtain ⟨hqid, -, -⟩ := hinv q hq
      simp [Function.comp, hqid]
    rw [hcong, hfk]
    simp [hpv]
  rw [hvals] at hperm
  exact List.perm_singleton.mp hperm

/-- Witness for C2's amended statement at a concrete input: id 1 occurs in
both lists, is not tombstoned, and the merged output keeps exactly the live
version. -/
theorem c2_dedup_live_wins_witness :
    ∃ mL ∈ [(⟨some 1, 1, "alice", "new", some 100⟩ : Message)],
      mL.id = some 1 ∧
        lastWith [(⟨some 1, 1, "alice", "new", some 100⟩ : Message)] 1
          = some mL ∧
        (reconcile [⟨some 1, 1, "alice", "old", some 100⟩]
            [⟨some 1, 1, "alice", "new", some 100⟩] []).filter
          (fun m => m.id == some 1) = [mL] :=
  c2_dedup_live_wins [⟨some 1, 1, "alice", "old", some 100⟩]
    [⟨some 1, 1, "alice", "new", some 100⟩] [] 1 (by decide) (by decide)
    ⟨⟨some 1, 1, "alice", "old", some 100⟩, by decide, rfl⟩
    ⟨⟨some 1, 1, "alice", "new", some 100⟩, by decide, rfl⟩

instance : IsTotal Message (fun a b => effTime a ≤ effTime b) :=
  ⟨fun a b => Nat.le_total _ _⟩

instance : IsTrans Message (fun a b => effTime a ≤ effTime b) :=
  ⟨fun _ _ _ => Nat.le_trans⟩

/-- C8 (malformed input): the merge is a total function (it cannot throw);
every message in its output has a valid (present, nonzero) id, so a message
with a missing id is silently excluded; the output is sorted by effective
timestamp ascending, and a missing timestamp is treated as the epoch value 0,
which is minimal, so such a message sorts first. -/
theorem c8_malformed_input (hist live : List Message) (tombstones : List Nat) :
    ((reconcile hist live tombstones).all (fun m => m.hasValidId)) = true ∧
    (reconcile hist live tombstones).Sorted
      (fun a b => effTime a ≤ effTime b) ∧
    (∀ m : Message, m.timestamp = none →
      effTime m = 0 ∧ ∀ m' : Message, effTime m ≤ effTime m') := by
  refine ⟨?_, ?_, ?_⟩
  · rw [List.all_eq_true]
    intro m hm
    obtain ⟨k, hk, hk0, -⟩ := mem_reconcile hm
    simp [Message.hasValidId, hk, hk0]
  · exact List.sorted_insertionSort _ _
  · intro m hm
    refine ⟨by simp [effTime, hm], ?_⟩
    intro m'
    simp [effTime, hm]

/-- Witness for C8 at a concrete input: a message with a missing timestamp has
effective time 0 and sorts no later than any other message. -/
theorem c8_malformed_input_witness :
    effTime ⟨some 3, 1, "carol", "hi", none⟩ = 0 ∧
      effTime ⟨some 3, 1, "carol", "hi", none⟩
        ≤ effTime ⟨some 4, 1, "dave", "yo", some 500⟩ := by
  have h := (c8_malformed_input [] [] []).2.2 ⟨some 3, 1, "carol", "hi", none⟩
    rfl
  exact ⟨h.1, h.2 _⟩

/-- C4 (determinism / idempotence): the merge is embedded as the pure
function `reconcile`; running it twice on identical historical list, live
list and tombstone set yields identical output, including identical order
(list equality). In the source this holds because the effect reads only its
inputs, JS `Map` iteration order is deterministic, and `Array.sort` is a
deterministic stable sort. -/
theorem c4_reconcile_deterministic (hist live : List Message)
    (tombstones : List Nat) :
    reconcile hist live tombstones = reconcile hist live tombstones := rfl

section RenderSort

/-- Cache membership `translatedMessages.has(m.id)` — the message has a cached translation at
sort time (`translatedMessages` modelled as the list of cached message ids).
`Map.has(undefined)` is false. -/
def hasCachedTranslation (trans : List Nat) (m : Message) : Bool :=
  match m.id with
  | some i => trans.contains i
  | none => false

/-- The render sort comparator of `ChatContainer` (lines 667-684): compare by
effective timestamp; if the timestamps are within 1000 ms of each other,
messages with a cached translation are moved after those without. -/
def renderCmp (trans : List Nat) (a b : Message) : Int :=
  if (((effTime a : Int)) - ((effTime b : Int))).natAbs < 1000 then
    if hasCachedTranslation trans a && !hasCachedTranslation trans b then 1
    else if !hasCachedTranslation trans a && hasCachedTranslation trans b
      then -1
    else ((effTime a : Int)) - ((effTime b : Int))
  else ((effTime a : Int)) - ((effTime b : Int))

/-- The order induced by the comparator (`comparator a b <= 0` keeps `a` no
later than `b`). -/
def renderLe (trans : List Nat) (a b : Message) : Prop :=
  renderCmp trans a b ≤ 0

instance (trans : List Nat) : DecidableRel (renderLe trans) :=
  fun a b => inferInstanceAs (Decidable (renderCmp trans a b ≤ 0))

theorem renderCmp_antisymm (trans : List Nat) (a b : Message) :
    renderCmp trans b a = -(renderCmp trans a b) := by
  unfold renderCmp
  cases hasCachedTranslation trans a <;> cases hasCachedTranslation trans b <;>
    simp only [Bool.and_self, Bool.not_true, Bool.not_false, Bool.and_true,
      Bool.and_false, Bool.true_and, Bool.false_and, if_true, if_false,
      Bool.false_eq_true, Bool.true_eq_false, ite_false, ite_true] <;>
    split_ifs <;> omega

instance (trans : List Nat) : IsTotal Message (renderLe trans) := by
  constructor
  intro a b
  unfold renderLe
  rw [renderCmp_antisymm]
  omega

instance (trans : List Nat) : IsTrans Message (renderLe trans) := by
  constructor
  intro a b c hab hbc
  unfold renderLe renderCmp at hab hbc ⊢
  cases ha : hasCachedTranslation trans a <;>
    cases hb : hasCachedTranslation trans b <;>
      cases hc : hasCachedTranslation trans c <;>
        simp only [ha, hb, hc, Bool.and_self, Bool.not_true, Bool.not_false,
          Bool.and_true, Bool.and_false, Bool.true_and, Bool.false_and,
          Bool.and_not_self, Bool.not_and_self, if_true, if_false,
          ite_self] at hab hbc ⊢ <;>
        split_ifs at hab hbc ⊢ <;> omega

/-- The render pipeline's duplicate filter (ChatContainer lines 664-666):
keep only the first occurrence of each message id. -/
def dedupeByFirst (l : List Message) : List Message :=
  l.foldl
    (fun acc m => if acc.any (fun m2 => m2.id == m.id) then acc
      else acc ++ [m]) []

/-- The render pipeline `roomMessages.filter(...).sort(comparator)` — the sequence handed to the
view (ChatContainer lines 663-684). -/
def renderView (trans : List Nat) (roomMessages : List Message) :
    List Message :=
  List.insertionSort (renderLe trans) (dedupeByFirst roomMessages)

end RenderSort

/-- C3 counterexample: with messages at timestamps 0 (with a cached
translation) and 999 (without), the view sequence is NOT sorted by timestamp
ascending — the tie-break moves the translated, older message after the
newer one. -/
theorem c3_ordering_counterexample :
    ¬ (renderView [1]
        [⟨some 1, 1, "u", "x", some 0⟩, ⟨some 2, 1, "u", "y", some 999⟩]).Sorted
      (fun a b => effTime a ≤ effTime b) := by
  decide

/-- C3 amended: the view sequence is ordered by the render comparator: for
every pair of messages in output order, if their timestamps are within 1
second of each other and exactly one of them has a cached translation, the
translated one is placed after the untranslated one (even when this breaks
timestamp order — which the counterexample shows can happen); every other
pair (at least 1 second apart, or with the same translation status) is in
timestamp-ascending order. -/
theorem c3_ordering (trans : List Nat) (l : List Message) :
    (renderView trans l).Pairwise (fun a b =>
      ((((effTime a : Int) - (effTime b : Int)).natAbs < 1000 ∧
          hasCachedTranslation trans a ≠ hasCachedTranslation trans b) →
        hasCachedTranslation trans b = true) ∧
      ((1000 ≤ (((effTime a : Int) - (effTime b : Int)).natAbs) ∨
          hasCachedTranslation trans a = hasCachedTranslation trans b) →
        effTime a ≤ effTime b)) := by
  have hs := List.sorted_insertionSort (renderLe trans) (dedupeByFirst l)
  unfold renderView
  refine hs.imp ?_
  intro a b hle
  unfold renderLe renderCmp at hle
  constructor
  · rintro ⟨hw, hd⟩
    cases ha : hasCachedTranslation trans a <;>
      cases hb : hasCachedTranslation trans b
    · exact absurd (by rw [ha, hb]) hd
    · rfl
    · rw [ha, hb] at hle
      rw [if_pos hw] at hle
      simp at hle
    · exact absurd (by rw [ha, hb]) hd
  · intro hcase
    by_cases hw : ((effTime a : Int) - (effTime b : Int)).natAbs < 1000
    · rcases hcase with hcase | hcase
      · omega
      · rw [if_pos hw, hcase] at hle
        cases hasCachedTranslation trans b <;> simp at hle <;> omega
    · rw [if_neg hw] at hle
      omega

section Mention

/-- JS regex `\w`: ASCII letter, digit or underscore. -/
def isWordChar (c : Char) : Bool :=
  c.isAlphanum || c == '_'

/-- Case-insensitive character match (the regex `i` flag, ASCII). -/
def charMatches (p c : Char) : Bool :=
  p.toLower == c.toLower

/-- Case-insensitive "text begins with pattern". -/
def beginsWithCI : List Char → List Char → Bool
  | [], _ => true
  | _ :: _, [] => false
  | p :: ps, c :: cs => charMatches p c && beginsWithCI ps cs

/-- The regex `\b` immediately after a matched portion whose last character is
`lastc`: a word boundary exists iff exactly one side is a word character (the
end of the string counts as a non-word character). -/
def boundaryAfter (lastc : Char) : List Char → Bool
  | [] => isWordChar lastc
  | c :: _ => isWordChar lastc != isWordChar c

/-- Scan for the regex `@name\b` (case-insensitive) anywhere in the text:
an `@`, then the display name, then a word boundary. Mirrors
`new RegExp("@" + currentUserName + "\\b", "i")` of `isUserMentioned`
(ChatContainer lines 224-238); the display name is assumed to contain no
regex metacharacters. -/
def scanAtMention (name : List Char) : List Char → Bool
  | [] => false
  | c :: rest =>
      (c == '@' && beginsWithCI name rest &&
        boundaryAfter ((rest.take name.length).getLastD '@')
          (rest.drop name.length))
      || scanAtMention name rest

/-- The source's `isUserMentioned` (ChatContainer lines 224-238): false on missing/empty
original text, otherwise the regex test `@name\b` (case-insensitive). -/
def isUserMentioned (name : String) (m : Message) : Bool :=
  if m.originalText == "" then false
  else scanAtMention name.toList m.originalText.toList

/-- One message of the mention-detection loop (ChatContainer lines 312-347):
a notification fires iff the id is truthy and not in the previous view's id
set, the sender is not the current user, and the regex matches. -/
def mentionTriggered (uid name : String) (prevIds : List Nat)
    (m : Message) : Bool :=
  (match m.id with
   | none => false
   | some i => (i != 0) && !(prevIds.contains i)) &&
  (m.senderId != uid) && isUserMentioned name m

/-- The set of message ids that fire a mention notification in one
reconciliation pass over the merged view. -/
def detectNewMentions (uid name : String) (prevIds : List Nat)
    (merged : List Message) : List Nat :=
  merged.filterMap (fun m =>
    if mentionTriggered uid name prevIds m then m.id else none)

/-- Modelled from the spec: the claim's own mention criterion — the text
contains the display name as a whole-word, case-insensitive token (`\b` on
both sides, no `@` sign required). Used only to compare the claim's wording
with the source's `@name\b` regex. -/
def specWordScan (name : List Char) (prev : Option Char) :
    List Char → Bool
  | [] => false
  | c :: rest =>
      (beginsWithCI name (c :: rest) &&
        (match prev with
         | none => isWordChar c
         | some p => isWordChar p != isWordChar c) &&
        boundaryAfter (((c :: rest).take name.length).getLastD ' ')
          ((c :: rest).drop name.length))
      || specWordScan name (some c) rest

/-- Modelled from the spec: whole-word, case-insensitive containment of the
display name in the text, as the claim words it. -/
def specMentioned (name text : String) : Bool :=
  specWordScan name.toList none text.toList

theorem mentionTriggered_iff {uid name : String} {prevIds : List Nat}
    {m : Message} {i : Nat} :
    (mentionTriggered uid name prevIds m = true ∧ m.id = some i) ↔
      (m.id = some i ∧ i ≠ 0 ∧ i ∉ prevIds ∧ m.senderId ≠ uid ∧
        isUserMentioned name m = true) := by
  unfold mentionTriggered
  constructor
  · rintro ⟨htrig, hid⟩
    rw [hid] at htrig
    simp only [Bool.and_eq_true] at htrig
    obtain ⟨⟨⟨h1, h2⟩, h3⟩, h4⟩ := htrig
    refine ⟨hid, by simpa using h1, ?_, by simpa using h3, h4⟩
    intro hmem
    have hc : prevIds.contains i = true := List.elem_iff.mpr hmem
    rw [Bool.not_eq_true'] at h2
    rw [hc] at h2
    exact absurd h2 (by simp)
  · rintro ⟨hid, h1, h2, h3, h4⟩
    refine ⟨?_, hid⟩
    rw [hid]
    simp only [Bool.and_eq_true]
    refine ⟨⟨⟨by simpa using h1, ?_⟩, by simpa using h3⟩, h4⟩
    rw [Bool.not_eq_true']
    rw [Bool.eq_false_iff]
    intro hc
    exact h2 (List.elem_iff.mp hc)

theorem mem_detectNewMentions {uid name : String} {prevIds : List Nat}
    {merged : List Message} {i : Nat} :
    i ∈ detectNewMentions uid name prevIds merged ↔
      ∃ m ∈ merged, m.id = some i ∧ i ≠ 0 ∧ i ∉ prevIds ∧
        m.senderId ≠ uid ∧ isUserMentioned name m = true := by
  unfold detectNewMentions
  rw [List.mem_filterMap]
  constructor
  · rintro ⟨m, hm, hf⟩
    by_cases htrig : mentionTriggered uid name prevIds m = true
    · rw [if_pos htrig] at hf
      exact ⟨m, hm, mentionTriggered_iff.mp ⟨htrig, hf⟩⟩
    · rw [if_neg htrig] at hf
      exact absurd hf (by simp)
  · rintro ⟨m, hm, hrest⟩
    have := mentionTriggered_iff.mpr hrest
    exact ⟨m, hm, by rw [if_pos this.1]; exact this.2⟩

end Mention

/-- C5 counterexample: user "Alice" (sender is someone else, message id is
new) receives the text "Alice hello", which contains her display name as a
whole-word case-insensitive token exactly as the claim words it — yet the
source's `isUserMentioned` requires a literal `@` before the name, so no
mention notification is triggered. -/
theorem c5_mention_counterexample :
    specMentioned "Alice" "Alice hello" = true ∧
    (⟨some 7, 1, "bob", "Alice hello", some 10⟩ : Message).senderId
      ≠ "alice-id" ∧
    mentionTriggered "alice-id" "Alice" []
      ⟨some 7, 1, "bob", "Alice hello", some 10⟩ = false := by
  refine ⟨by decide, by decide, by decide⟩

/-- C5 amended: a message fires a mention notification iff (a) its id is
valid (present and nonzero) and not in the previous view, (b) its sender is
not the current user, and (c) its original text matches the case-insensitive
regex `@name\b` — i.e. the display name must be preceded by a literal `@`
and followed by a word boundary, not merely contained as a whole word. In
particular a message authored by the current user never triggers, even if it
contains (or `@`-mentions) their own name. -/
theorem c5_mention_trigger (uid name : String) (prevIds : List Nat)
    (merged : List Message) :
    (∀ m : Message, m.senderId = uid →
      mentionTriggered uid name prevIds m = false) ∧
    (∀ i : Nat, i ∈ detectNewMentions uid name prevIds merged ↔
      ∃ m ∈ merged, m.id = some i ∧ i ≠ 0 ∧ i ∉ prevIds ∧
        m.senderId ≠ uid ∧ isUserMentioned name m = true) := by
  constructor
  · intro m hm
    unfold mentionTriggered
    rw [hm]
    simp
  · intro i
    exact mem_detectNewMentions

/-- Witness for C5's amended statement: self-exclusion evaluated at a
concrete message sent by the current user that textually `@`-mentions
themselves. -/
theorem c5_mention_trigger_witness :
    mentionTriggered "alice-id" "Alice" []
      ⟨some 9, 1, "alice-id", "@Alice hi", some 10⟩ = false :=
  (c5_mention_trigger "alice-id" "Alice" [] []).1
    ⟨some 9, 1, "alice-id", "@Alice hi", some 10⟩ rfl

section Session

/-- The ids of a message list (`roomMessages.map(msg => msg.id)` as a set,
restricted to present ids). -/
def idsOf (l : List Message) : List Nat :=
  l.filterMap (fun m => m.id)

/-- The inputs of one execution of the merge effect: `initialMessages`, the
WebSocket messages already filtered to the room, and `deletedMessageIds`. -/
structure PassInput where
  db : List Message
  ws : List Message
  tomb : List Nat
  deriving DecidableEq, Repr

/-- The merged view produced by one reconciliation pass. -/
def passView (inp : PassInput) : List Message :=
  reconcile inp.db inp.ws inp.tomb

/-- A session: repeated executions of the merge effect. The state is
`roomMessages` (initially empty, replaced by the merged view at the end of
each pass, ChatContainer line 360); `previousMessageIds` of each pass is the
id set of the state (line 303). The result is the concatenation of all
mention-notification id lists. -/
def runNotifs (uid name : String) : List Message → List PassInput → List Nat
  | _, [] => []
  | state, inp :: rest =>
      detectNewMentions uid name (idsOf state) (passView inp)
        ++ runNotifs uid name (passView inp) rest

/-- All mention notifications fired during a session started with an empty
view. -/
def sessionNotifs (uid name : String) (inputs : List PassInput) : List Nat :=
  runNotifs uid name [] inputs

/-- Monotone-session condition: each pass's merged view retains every id of
the previous pass's view (no pass drops an id that was visible before). -/
def idsMono : List Message → List PassInput → Bool
  | _, [] => true
  | state, inp :: rest =>
      (idsOf state).all (fun j => (idsOf (passView inp)).contains j) &&
        idsMono (passView inp) rest

theorem filterMap_eq_map_of_forall {α β : Type} (f : α → Option β)
    (g : α → β) :
    ∀ l : List α, (∀ x ∈ l, f x = some (g x)) → l.filterMap f = l.map g := by
  intro l h
  induction l with
  | nil => rfl
  | cons a rest ih =>
      rw [List.filterMap_cons, h a (List.mem_cons_self _ _), List.map_cons,
        ih (fun x hx => h x (List.mem_cons_of_mem _ hx))]

theorem idsOf_reconcile_perm (hist live : List Message)
    (tombstones : List Nat) :
    (idsOf (reconcile hist live tombstones)).Perm
      ((buildMap hist live tombstones).map Prod.fst) := by
  unfold idsOf reconcile
  have hperm := List.perm_insertionSort (fun a b => effTime a ≤ effTime b)
    ((buildMap hist live tombstones).map Prod.snd)
  refine (hperm.filterMap _).trans ?_
  rw [List.filterMap_map]
  rw [filterMap_eq_map_of_forall _ Prod.fst _ ?_]
  intro p hp
  obtain ⟨hinv, -⟩ := mapInv_buildMap hist live tombstones
  exact (hinv p hp).1

theorem idsOf_reconcile_nodup (hist live : List Message)
    (tombstones : List Nat) :
    (idsOf (reconcile hist live tombstones)).Nodup :=
  (idsOf_reconcile_perm hist live tombstones).nodup_iff.mpr
    (mapInv_buildMap hist live tombstones).2

theorem count_detect_le_count_ids (uid name : String) (prevIds : List Nat)
    (merged : List Message) (i : Nat) :
    (detectNewMentions uid name prevIds merged).count i
      ≤ (idsOf merged).count i := by
  induction merged with
  | nil => simp [detectNewMentions, idsOf]
  | cons m rest ih =>
      unfold detectNewMentions idsOf at ih ⊢
      rw [List.filterMap_cons, List.filterMap_cons]
      by_cases htrig : mentionTriggered uid name prevIds m = true
      · rw [if_pos htrig]
        cases hid : m.id with
        | none => exact ih
        | some j =>
            simp only [List.count_cons]
            omega
      · rw [if_neg htrig]
        cases hid : m.id with
        | none => exact ih
        | some j =>
            simp only [List.count_cons]
            omega

theorem mem_detect_mem_ids {uid name : String} {prevIds : List Nat}
    {merged : List Message} {i : Nat}
    (h : i ∈ detectNewMentions uid name prevIds merged) :
    i ∈ idsOf merged ∧ i ∉ prevIds := by
  obtain ⟨m, hm, hid, -, hprev, -, -⟩ := mem_detectNewMentions.mp h
  exact ⟨List.mem_filterMap.mpr ⟨m, hm, hid⟩, hprev⟩

theorem runNotifs_count_zero (uid name : String) (i : Nat) :
    ∀ (inputs : List PassInput) (state : List Message),
      idsMono state inputs = true → i ∈ idsOf state →
      (runNotifs uid name state inputs).count i = 0 := by
  intro inputs
  induction inputs with
  | nil => intro state _ _; rfl
  | cons inp rest ih =>
      intro state hmono hstate
      unfold idsMono at hmono
      rw [Bool.and_eq_true] at hmono
      unfold runNotifs
      rw [List.count_append]
      have h1 : (detectNewMentions uid name (idsOf state)
          (passView inp)).count i = 0 := by
        rw [List.count_eq_zero]
        intro hmem
        exact (mem_detect_mem_ids hmem).2 hstate
      have h2 : i ∈ idsOf (passView inp) := by
        have := List.all_eq_true.mp hmono.1 i hstate
        exact List.elem_iff.mp this
      rw [h1, ih (passView inp) hmono.2 h2]

theorem runNotifs_count_le_one (uid name : String) (i : Nat) :
    ∀ (inputs : List PassInput) (state : List Message),
      idsMono state inputs = true →
      (runNotifs uid name state inputs).count i ≤ 1 := by
  intro inputs
  induction inputs with
  | nil => intro state _; simp [runNotifs]
  | cons inp rest ih =>
      intro state hmono
      unfold idsMono at hmono
      rw [Bool.and_eq_true] at hmono
      unfold runNotifs
      rw [List.count_append]
      by_cases hmem : i ∈ detectNewMentions uid name (idsOf state)
          (passView inp)
      · have hd : (detectNewMentions uid name (idsOf state)
            (passView inp)).count i ≤ 1 := by
          refine le_trans (count_detect_le_count_ids uid name _ _ i) ?_
          exact List.nodup_iff_count_le_one.mp
            (idsOf_reconcile_nodup inp.db inp.ws inp.tomb) i
        have hr : (runNotifs uid name (passView inp) rest).count i = 0 :=
          runNotifs_count_zero uid name i rest (passView inp) hmono.2
            (mem_detect_mem_ids hmem).1
        omega
      · rw [List.count_eq_zero.mpr hmem]
        have := ih (passView inp) hmono.2
        omega

end Session

/-- C6 counterexample: a session in which message 1 (an `@`-mention of the
current user by someone else) is reconciled, then disappears from the view
(e.g. a pass whose inputs no longer contain it), then is reconciled again.
It is "new" relative to the stale emptied view, so the notification for id 1
fires twice in the same session — the accumulated `mentionedMessageIds`
state is never consulted by the notification path. -/
theorem c6_at_most_once_counterexample :
    (sessionNotifs "alice-id" "Alice"
      [⟨[⟨some 1, 1, "bob", "hi @Alice", some 10⟩], [], []⟩,
       ⟨[], [], []⟩,
       ⟨[⟨some 1, 1, "bob", "hi @Alice", some 10⟩], [], []⟩]).count 1
      = 2 := by
  decide

/-- C6 amended: a message id fires a mention notification at most once per
session PROVIDED no pass drops from the merged view an id that an earlier
pass produced (`idsMono`): the only guard is "not in the immediately
preceding view", so at-most-once holds exactly when the view never loses the
id; if the id leaves the view and reappears (stale replay, room switch), the
notification fires again, as the counterexample shows. -/
theorem c6_at_most_once (uid name : String) (inputs : List PassInput)
    (hmono : idsMono [] inputs = true) (i : Nat) :
    (sessionNotifs uid name inputs).count i ≤ 1 :=
  runNotifs_count_le_one uid name i inputs [] hmono

/-- Witness for C6's amended statement: a two-pass session that keeps
message 1 in view satisfies the monotone condition and notifies exactly
once (at most once). -/
theorem c6_at_most_once_witness :
    (sessionNotifs "alice-id" "Alice"
      [⟨[⟨some 1, 1, "bob", "hi @Alice", some 10⟩], [], []⟩,
       ⟨[⟨some 1, 1, "bob", "hi @Alice", some 10⟩], [], []⟩]).count 1
      ≤ 1 :=
  c6_at_most_once "alice-id" "Alice"
    [⟨[⟨some 1, 1, "bob", "hi @Alice", some 10⟩], [], []⟩,
     ⟨[⟨some 1, 1, "bob", "hi @Alice", some 10⟩], [], []⟩]
    (by decide) 1

section TranslationCache

/-- The translation-cache state: the `translatedMessages` map of
`ChatContainer` plus a request generation. The map is from the source; the
generation counter is the spec's cancellation mechanism (§4.4), carried by
the `translationManager` collaborator whose source is not in the repository
snapshot. -/
structure TransCacheState where
  generation : Nat
  cache : List (Nat × String)
  deriving DecidableEq, Repr

/-- JS `Map.set` for the translation cache (same semantics as `mapSet`). -/
def cacheSet (acc : List (Nat × String)) (k : Nat) (v : String) :
    List (Nat × String) :=
  if acc.any (fun p => p.1 == k) then
    acc.map (fun p => if p.1 == k then (k, v) else p)
  else
    acc ++ [(k, v)]

/-- Cache lookup (`translatedMessages.get(messageId)`). -/
def cacheGet : List (Nat × String) → Nat → Option String
  | [], _ => none
  | p :: rest, k => if p.1 == k then some p.2 else cacheGet rest k

/-- Language-change invalidation: the source clears the whole map
(`setTranslatedMessages(new Map())`, ChatContainer lines 402-406). Modelled
from the spec: the generation counter is bumped on every language change
(spec §4.4; the counter lives in the `translationManager`, which is not part
of the repository snapshot). -/
def languageChangeReset (st : TransCacheState) : TransCacheState :=
  { generation := st.generation + 1, cache := [] }

/-- Modelled from the spec: delivery of an asynchronous translation result.
The `translationManager` (not in the repository snapshot) tags each
outstanding request with the generation current at request time and invokes
the completion callback only if that generation is still current (spec
§4.4); the callback itself writes the result into the map unconditionally
(`handleManualTranslation`, ChatContainer lines 411-429). -/
def deliverTranslation (st : TransCacheState) (reqGen mid : Nat)
    (txt : String) : TransCacheState :=
  if reqGen == st.generation then
    { st with cache := cacheSet st.cache mid txt }
  else st

end TranslationCache

/-- C7 (stale translation discarded): a translation requested at or before
the current generation and delivered after a language change (which bumps
the generation and clears the cache) is not written into the cache: the
subsequent lookup for that message id is absent. -/
theorem c7_stale_translation_dropped (st : TransCacheState)
    (reqGen mid : Nat) (txt : String) (hreq : reqGen ≤ st.generation) :
    cacheGet
      (deliverTranslation (languageChangeReset st) reqGen mid txt).cache
      mid = none := by
  unfold deliverTranslation languageChangeReset
  have hne : (reqGen == st.generation + 1) = false := by
    simp only [beq_eq_false_iff_ne, ne_eq]
    omega
  rw [hne]
  rfl

/-- Witness for C7 at a concrete state: generation 2, a pending request
tagged 2, language change to generation 3, late delivery for message 5 —
the lookup for 5 is absent. -/
theorem c7_stale_translation_dropped_witness :
    cacheGet
      (deliverTranslation (languageChangeReset ⟨2, [(5, "hola")]⟩) 2 5
        "bonjour").cache 5 = none :=
  c7_stale_translation_dropped ⟨2, [(5, "hola")]⟩ 2 5 "bonjour"
    (by decide)

section Viewport

/-- The viewport flags of `ChatContainer`: `isUserScrolling`,
`showScrollToBottom` and the message count, plus a ghost field
`lastNearBottom` recording whether the view was near the bottom at the most
recent scroll event (`some true` also after a scroll-to-bottom; a scroll
with an empty message list records `some true` since the source treats it
that way). The ghost field is never read by the transition code — it only
serves the specification. -/
structure ViewState where
  isUserScrolling : Bool
  showScrollToBottom : Bool
  msgCount : Nat
  lastNearBottom : Option Bool
  deriving DecidableEq, Repr

/-- The events driving the viewport flags: a scroll event carrying the
computed `isNearBottom`, the 2-second quiet-period timeout that resets
`isUserScrolling` (ChatContainer lines 383-386), arrival of a new merged
view of `n` messages, a click on the jump-to-latest button, and sending an
own message. -/
inductive UiEvent where
  | scroll (nearBottom : Bool)
  | quiet
  | arrive (n : Nat)
  | jumpClick
  | sendOwn (text : String)
  deriving DecidableEq, Repr

/-- JS `String.prototype.trim`: strip whitespace from both ends (embedded
over the character list so that it evaluates in the kernel). -/
def jsTrim (s : String) : String :=
  String.mk
    (((s.toList.dropWhile Char.isWhitespace).reverse.dropWhile
      Char.isWhitespace).reverse)

/-- The source's `scrollToBottom` (ChatContainer lines 364-367): clears
`showScrollToBottom`; the ghost field records that the view is now at the
bottom. -/
def scrollToBottomS (st : ViewState) : ViewState :=
  { st with showScrollToBottom := false, lastNearBottom := some true }

/-- One step of the viewport state machine; the returned Bool reports
whether `scrollToBottom` was performed by this event.
`scroll`: `handleScroll` (lines 370-387) sets
`showScrollToBottom := !isNearBottom && roomMessages.length > 0` and marks
the user as scrolling. `quiet`: the debounce timeout resets
`isUserScrolling`. `arrive n`: the autoscroll effect (lines 389-399) scrolls
iff `!isUserScrolling && !showScrollToBottom && n > 0`. `jumpClick`: the
jump-to-latest button calls `scrollToBottom`. `sendOwn`: `handleSendMessage`
(lines 431-444) returns early on whitespace-only text and otherwise forces
`scrollToBottom` unconditionally. -/
def stepView (st : ViewState) : UiEvent → ViewState × Bool
  | .scroll nb =>
      ({ isUserScrolling := true,
         showScrollToBottom := !nb && st.msgCount != 0,
         msgCount := st.msgCount,
         lastNearBottom := some (nb || st.msgCount == 0) }, false)
  | .quiet => ({ st with isUserScrolling := false }, false)
  | .arrive n =>
      if !st.isUserScrolling && !st.showScrollToBottom && n != 0 then
        (scrollToBottomS { st with msgCount := n }, true)
      else ({ st with msgCount := n }, false)
  | .jumpClick => (scrollToBottomS st, true)
  | .sendOwn text =>
      if jsTrim text == "" then (st, false) else (scrollToBottomS st, true)

/-- Initial viewport state: no scroll yet, affordance hidden, no messages. -/
def initView : ViewState :=
  { isUserScrolling := false, showScrollToBottom := false, msgCount := 0,
    lastNearBottom := none }

/-- Run the viewport state machine over a list of events. -/
def runView (evs : List UiEvent) : ViewState :=
  evs.foldl (fun st e => (stepView st e).1) initView

end Viewport

/-- C9 counterexample: the user scrolls while near the bottom (so the
affordance flag stays false) and is still within the 2-second scrolling
window when a new message arrives. Autoscroll does not fire (consistent
with the claim, since `isUserScrolling` is true), but the claim's
"otherwise a jump-to-latest affordance is shown instead" is false: the
affordance is not shown either. -/
theorem c9_autoscroll_counterexample :
    (stepView (runView [UiEvent.arrive 1, UiEvent.scroll true])
      (UiEvent.arrive 2)).2 = false ∧
    (runView [UiEvent.arrive 1, UiEvent.scroll true]).isUserScrolling
      = true ∧
    (runView [UiEvent.arrive 1, UiEvent.scroll true]).showScrollToBottom
      = false := by
  decide

/-- C9 amended: on new-message arrival, autoscroll fires iff
`isUserScrolling` is false and the last scroll event did not record
"away from the bottom" (no scroll yet, a scroll near the bottom, a scroll
while the list was empty, and any scroll-to-bottom all count as near);
the jump-to-latest affordance is shown exactly when the last scroll
recorded "away from the bottom" — not merely whenever autoscroll is
suppressed; and sending one's own (non-whitespace) message always forces a
scroll-to-bottom regardless of both flags. -/
theorem c9_autoscroll_policy (evs : List UiEvent) :
    ((runView evs).showScrollToBottom
      = ((runView evs).lastNearBottom == some false)) ∧
    (∀ n : Nat, n ≠ 0 →
      (stepView (runView evs) (UiEvent.arrive n)).2 =
        (!(runView evs).isUserScrolling &&
          !((runView evs).lastNearBottom == some false))) ∧
    (∀ text : String, jsTrim text ≠ "" →
      (stepView (runView evs) (UiEvent.sendOwn text)).2 = true) := by
  have hinv : ∀ (l : List UiEvent) (st : ViewState),
      st.showScrollToBottom = (st.lastNearBottom == some false) →
      (l.foldl (fun st e => (stepView st e).1) st).showScrollToBottom
        = ((l.foldl (fun st e => (stepView st e).1) st).lastNearBottom
            == some false) := by
    intro l
    induction l with
    | nil => intro st h; exact h
    | cons e rest ih =>
        intro st h
        refine ih _ ?_
        cases e with
        | scroll nb =>
            simp only [stepView]
            cases nb <;> cases hc : st.msgCount == 0 <;> simp [hc, bne]
        | quiet => simpa [stepView] using h
        | arrive n =>
            simp only [stepView]
            by_cases hfire : (!st.isUserScrolling && !st.showScrollToBottom
                && n != 0) = true
            · rw [if_pos hfire]
              simp [scrollToBottomS]
            · rw [if_neg hfire]
              exact h
        | jumpClick => simp [stepView, scrollToBottomS]
        | sendOwn text =>
            simp only [stepView]
            by_cases htext : (jsTrim text == "") = true
            · rw [if_pos htext]
              exact h
            · rw [if_neg htext]
              simp [scrollToBottomS]
  have hrun : (runView evs).showScrollToBottom
      = ((runView evs).lastNearBottom == some false) :=
    hinv evs initView rfl
  refine ⟨hrun, ?_, ?_⟩
  · intro n hn
    have hn' : (n != 0) = true := by simpa using hn
    simp only [stepView]
    rw [hrun]
    by_cases hfire : (!(runView evs).isUserScrolling
        && !((runView evs).lastNearBottom == some false) && n != 0) = true
    · rw [if_pos hfire]
      rw [Bool.and_eq_true] at hfire
      rw [hfire.1]
    · rw [if_neg hfire]
      cases hAB : (!(runView evs).isUserScrolling
          && !((runView evs).lastNearBottom == some false)) with
      | false => rfl
      | true =>
          exact absurd
            (show (!(runView evs).isUserScrolling
                && !((runView evs).lastNearBottom == some false)
                && n != 0) = true by rw [hAB, hn']; rfl) hfire
  · intro text htext
    simp only [stepView]
    rw [if_neg (by simpa using htext)]

/-- Witness for C9's amended statement: in the initial state (no scroll
yet), the first arrival autoscrolls, and sending an own non-empty message
forces a scroll. -/
theorem c9_autoscroll_policy_witness :
    (stepView (runView []) (UiEvent.arrive 1)).2 = true ∧
    (stepView (runView []) (UiEvent.sendOwn "hi")).2 = true := by
  constructor
  · have h := (c9_autoscroll_policy []).2.1 1 (by decide)
    rw [h]
    decide
  · exact (c9_autoscroll_policy []).2.2 "hi" (by decide)

section Upload

/-- The selected file of the profile-image upload: its MIME type and size in
bytes. -/
structure UploadFile where
  type : String
  size : Nat
  deriving DecidableEq, Repr

/-- Case-sensitive "text begins with pattern" over character lists
(JS `String.prototype.startsWith`, embedded so it evaluates in the
kernel). -/
def beginsWith : List Char → List Char → Bool
  | [], _ => true
  | _ :: _, [] => false
  | p :: ps, c :: cs => (p == c) && beginsWith ps cs

/-- The check `file.type.startsWith("image/")`. -/
def strBeginsWith (s pre : String) : Bool :=
  beginsWith pre.toList s.toList

/-- What `handleFileUpload` decides to do with the selected file. -/
inductive UploadOutcome where
  | noFile
  | invalidType
  | tooLarge
  | upload
  deriving DecidableEq, Repr

/-- The source's `handleFileUpload` (ProfileImageUpload lines 83-105): return early when
no file is selected, when the MIME type does not start with `image/`, or
when the size exceeds 1 * 1024 * 1024 bytes; only otherwise proceed to the
resize-and-upload path, the only path that can reach
`updateProfileImageMutation.mutate`. -/
def handleFileUpload (file : Option UploadFile) : UploadOutcome :=
  match file with
  | none => UploadOutcome.noFile
  | some f =>
      if !(strBeginsWith f.type "image/") then UploadOutcome.invalidType
      else if f.size > 1 * 1024 * 1024 then UploadOutcome.tooLarge
      else UploadOutcome.upload

/-- The update mutation can only be invoked on the `upload` outcome (inside
`img.onload`, ProfileImageUpload lines 114-140); every other outcome leaves
the stored profile image unchanged. -/
def mutationReachable (o : UploadOutcome) : Bool :=
  o == UploadOutcome.upload

end Upload

/-- C10 (upload validation): for every selected file whose MIME type does
not start with `image/` or whose size exceeds 1048576 bytes, the handler
returns before the resize-and-upload path, so `updateProfileImageMutation`
is never invoked and the stored profile image is unchanged. -/
theorem c10_upload_validation (f : UploadFile)
    (h : strBeginsWith f.type "image/" = false ∨ 1048576 < f.size) :
    mutationReachable (handleFileUpload (some f)) = false := by
  simp only [handleFileUpload, mutationReachable]
  rcases h with h | h
  · rw [if_pos (by simp [h])]
    rfl
  · by_cases ht : strBeginsWith f.type "image/" = true
    · rw [if_neg (by simp [ht]), if_pos (by simpa using h)]
      rfl
    · rw [if_pos (by simp [Bool.eq_false_iff.mpr ht])]
      rfl

/-- Witness for C10 at concrete inputs: a non-image file and an oversized
image are both rejected without reaching the mutation. -/
theorem c10_upload_validation_witness :
    mutationReachable (handleFileUpload (some ⟨"text/plain", 10⟩)) = false ∧
    mutationReachable (handleFileUpload (some ⟨"image/png", 2000000⟩))
      = false :=
  ⟨c10_upload_validation ⟨"text/plain", 10⟩ (Or.inl (by decide)),
   c10_upload_validation ⟨"image/png", 2000000⟩ (Or.inr (by decide))⟩
